import Mathlib

/-!
Shallow embedding of `generator/post.go` from eleztian/blog-generator.

The post pipeline is modelled over pure data:
* a buffered reader (`bufio.Reader`) becomes an explicit character stream,
  where `none` stands for the reader wrapped around a `nil` `*os.File`
  (the handle `os.Open` returns together with an error);
* `getMeta`, `getImages`, `newPost` and `replaceCodeParts` are translated
  line by line from the source; external calls (`yaml.Unmarshal`,
  `time.Parse`, `ioutil.ReadDir`'s sort, goquery's parse/serialize,
  `syntaxhighlight.AsHTML`) are modelled by small Lean functions or taken
  as function parameters, each documented at its definition;
* the `for {}` read loop of `getMeta` is given explicit fuel: a result of
  `none` means the loop has not finished within that much fuel, so
  `∀ fuel, … = none` expresses genuine divergence.
-/

namespace BlogGen

/-- A `bufio.Reader`: `none` models a reader over a `nil` file handle
(every read fails with `os.ErrInvalid`), `some cs` a reader with the
characters `cs` still unread. -/
abbrev GoStream := Option (List Char)

/-- Outcome of one `ReadString` call, mirroring the Go `error` value:
`ok` (nil error), `eof` (`io.EOF`), `invalid` (`os.ErrInvalid`, the error
a read on a `nil` `*os.File` returns). -/
inductive ReadErr where
  | ok
  | eof
  | invalid
deriving DecidableEq, Repr

/-- The `%v` rendering of the modelled read errors. -/
def ReadErr.msg : ReadErr → String
  | .ok => ""
  | .eof => "EOF"
  | .invalid => "invalid argument"

/-- `bufio.Reader.ReadString('\n')` on raw characters: returns the data up
to and including the first newline; if the data runs out first, returns
what was read together with an EOF flag. -/
def readStringNL : List Char → List Char × List Char × Bool
  | [] => ([], [], true)
  | c :: cs =>
    if c = '\n' then ([c], cs, false)
    else
      let r := readStringNL cs
      (c :: r.1, r.2.1, r.2.2)

/-- One `br.ReadString('\n')` call on the modelled reader. -/
def readLine : GoStream → List Char × GoStream × ReadErr
  | none => ([], none, .invalid)
  | some cs =>
    let r := readStringNL cs
    (r.1, some r.2.1, if r.2.2 then .eof else .ok)

/-- `strings.HasPrefix(line, "---")`. -/
def isFence (l : List Char) : Bool := ['-', '-', '-'].isPrefixOf l

/-- The header read loop of `getMeta` (`for { line, err = br.ReadString … }`),
with explicit fuel. `none` = fuel exhausted (the source loop would still be
running); `some (.error m)` = the non-EOF read error return;
`some (.ok (buf, rest))` = loop left via the `---` break, `buf` holding the
accumulated header bytes and `rest` the unread remainder of the stream. -/
def readHeaderLoop : Nat → GoStream → List Char → Option (Except String (List Char × GoStream))
  | 0, _, _ => none
  | fuel + 1, s, buf =>
    let r := readLine s
    if r.2.2 = ReadErr.invalid then some (.error ("error ReadString: " ++ ReadErr.msg .invalid))
    else if isFence r.1 then some (.ok (buf, r.2.1))
    else readHeaderLoop fuel r.2.1 (buf ++ r.1)

/-- Split a character list on newlines, `strings.Split` style: a trailing
newline yields a final empty piece. -/
def splitLines : List Char → List (List Char)
  | [] => [[]]
  | c :: cs =>
    if c = '\n' then [] :: splitLines cs
    else
      match splitLines cs with
      | [] => [[c]]
      | l :: ls => (c :: l) :: ls

/-- Split a line at its first colon: `some (before, after)`, or `none` when
the line has no colon. -/
def splitAtColon : List Char → Option (List Char × List Char)
  | [] => none
  | c :: cs =>
    if c = ':' then some ([], cs)
    else
      match splitAtColon cs with
      | none => none
      | some kv => some (c :: kv.1, kv.2)

/-- Drop spaces from both ends of a scalar, as YAML does for plain values. -/
def trimSpaces (l : List Char) : List Char :=
  ((l.dropWhile fun c => c == ' ').reverse.dropWhile fun c => c == ' ').reverse

/-- Model of one YAML mapping line for `yaml.v2`: `key: value` (the colon
separator must be followed by a space, or end the line), value trimmed of
surrounding spaces. `none` = the line does not decode as a flat mapping
entry, which makes `yaml.Unmarshal` fail. -/
def yamlLine (l : List Char) : Option (List Char × List Char) :=
  match splitAtColon l with
  | none => none
  | some kv =>
    match kv.2 with
    | [] => some (kv.1, [])
    | c :: rest => if c = ' ' then some (kv.1, trimSpaces (c :: rest)) else none

/-- Fold of `yamlLine` over the document's lines into the `(title, short,
date)` fields: empty lines are skipped, known keys overwrite, unknown keys
are ignored (the `yaml.v2` default for extra mapping keys). -/
def yamlGo : List (List Char) → List Char × List Char × List Char → Option (List Char × List Char × List Char)
  | [], acc => some acc
  | l :: ls, acc =>
    if l = [] then yamlGo ls acc
    else
      match yamlLine l with
      | none => none
      | some kv =>
        if kv.1 = "title".data then yamlGo ls (kv.2, acc.2.1, acc.2.2)
        else if kv.1 = "short".data then yamlGo ls (acc.1, kv.2, acc.2.2)
        else if kv.1 = "date".data then yamlGo ls (acc.1, acc.2.1, kv.2)
        else yamlGo ls acc

/-- Model of `yaml.Unmarshal(h, &meta)` restricted to flat `key: value`
documents (the only header shape this generator consumes): the `Meta`
struct's fields `Title`, `Short`, `Date` bind to the lowercased keys
`title`, `short`, `date`; absent keys leave the Go zero value `""`;
a line that is not a flat mapping entry is an unmarshal error (`none`). -/
def yamlUnmarshalMeta (h : List Char) : Option (List Char × List Char × List Char) :=
  yamlGo (splitLines h) ([], [], [])

/-- The `Meta` struct (fields used by `post.go`: `Title`, `Short`, `Date`,
`ParsedDate`). `time.Time` is modelled as an integer timestamp whose zero
value is `0`; `Time.After` is strict `>` on it. -/
structure Meta where
  title : List Char
  short : List Char
  date : List Char
  parsedDate : Int
deriving DecidableEq, Repr

/-- `getMeta(br, dateFormat)`. `parseTime` models `time.Parse(layout, value)`:
`none` is a parse error, in which case Go's `time.Parse` returns the zero
`time.Time`, and the source discards the error (the `if err != nil` body is
commented out), storing that zero value in `Meta.ParsedDate`.
Result: `none` = the read loop diverged (see `readHeaderLoop`);
`some (.error m)` / `some (.ok (meta, rest))` = the function returned,
`rest` being the stream position left for the markdown renderer. -/
def getMeta (fuel : Nat) (s : GoStream) (dateFormat : String)
    (parseTime : String → List Char → Option Int) :
    Option (Except String (Meta × GoStream)) :=
  let r := readLine s
  if r.2.2 ≠ ReadErr.ok then some (.error ("error ReadString: " ++ r.2.2.msg))
  else if ¬ isFence r.1 then some (.error "error in can not find \"---\"")
  else
    match readHeaderLoop fuel r.2.1 [] with
    | none => none
    | some (.error m) => some (.error m)
    | some (.ok (h, rest)) =>
      if h.length < 3 then some (.error "error ReadAll: <nil>")
      else
        match yamlUnmarshalMeta h with
        | none => some (.error "error reading yml: unmarshal error")
        | some tsd =>
          let pd := (parseTime dateFormat tsd.2.2).getD 0
          some (.ok ({ title := tsd.1, short := tsd.2.1, date := tsd.2.2, parsedDate := pd }, rest))

/-- The `Post` struct of `post.go`. -/
structure Post where
  name : String
  html : List Char
  meta : Meta
  imagesDir : String
  images : List String
deriving DecidableEq, Repr

/-- Outcome of the OS-level directory read under `ioutil.ReadDir`:
the directory does not exist (`os.IsNotExist`), fails for another reason,
or yields entries in raw on-disk listing order. -/
inductive DirRes where
  | notExist
  | failed (msg : String)
  | entries (names : List String)

/-- Lexicographic `≤` on character lists by code point (on UTF-8 strings,
byte order and code-point order coincide, so this is Go's string order). -/
def lexLe : List Char → List Char → Bool
  | [], _ => true
  | _ :: _, [] => false
  | a :: as, b :: bs => if a = b then lexLe as bs else decide (a < b)

/-- Go's string `≤` (the reflexive closure of the `<` used by
`sort.Slice` inside `ioutil.ReadDir`). -/
def strLeB (a b : String) : Prop := lexLe a.data b.data = true

instance : DecidableRel strLeB := fun a b => instDecidableEqBool (lexLe a.data b.data) true

/-- The sort `ioutil.ReadDir` documents ("sorted by filename") and performs
via `sort.Slice(list, list[i].Name() < list[j].Name())`, modelled as an
insertion sort by that order (equal names are identical strings, so any
correct comparison sort produces this list). -/
def sortByName (l : List String) : List String :=
  List.insertionSort strLeB l

/-- `getImages(path)`: reads `path/images` via `ioutil.ReadDir`, tolerating
absence, failing on other errors, and collecting `file.Name()` of every
returned entry (directories included, nothing filtered). `readDir` supplies
the raw OS listing that `ioutil.ReadDir` then sorts. -/
def getImages (readDir : String → DirRes) (path : String) : Except String (String × List String) :=
  let dirPath := path ++ "/images"
  match readDir dirPath with
  | .notExist => .ok ("", [])
  | .failed m => .error ("error while reading folder " ++ dirPath ++ ": " ++ m)
  | .entries raw => .ok (dirPath, sortByName raw)

/-- `filepath.Base` for the paths used here (no trailing slash): the part
after the last `/`, or the whole path when there is none. -/
def baseName (p : String) : String :=
  ⟨((p.data.reverse.takeWhile fun c => c ≠ '/').reverse)⟩

/-- `newPost(path, dateFormat)`. `openf` models `os.Open`: `none` when the
open fails, in which case the source DISCARDS the open error (`err` is
immediately overwritten by the `getMeta` call's result) and hands the `nil`
handle to `bufio.NewReader`, so the first read—not the open—produces the
error. `getHTMLf` stands for `getHTML` (blackfriday render + highlighting)
on the remaining stream; `readDir` as in `getImages`. -/
def newPost (openf : String → Option (List Char))
    (getHTMLf : GoStream → Except String (List Char))
    (readDir : String → DirRes)
    (path dateFormat : String) (fuel : Nat)
    (parseTime : String → List Char → Option Int) :
    Option (Except String Post) :=
  let filePath := path ++ "/post.md"
  let file : GoStream := openf filePath
  match getMeta fuel file dateFormat parseTime with
  | none => none
  | some (.error e) => some (.error ("error parsing meta in " ++ filePath ++ ":" ++ e))
  | some (.ok (meta, rest)) =>
    match getHTMLf rest with
    | .error e => some (.error e)
    | .ok html =>
      match getImages readDir path with
      | .error e => some (.error e)
      | .ok dirImgs =>
        some (.ok { name := baseName path, html := html, meta := meta,
                    imagesDir := dirImgs.1, images := dirImgs.2 })

/-- `time.Time.After`: strict `>` on the modelled timestamps. -/
def goTimeAfter (a b : Int) : Bool := decide (b < a)

/-- `ByDateDesc.Less(i, j)` compares the two posts' `Meta.ParsedDate` with
`Time.After`; the slice-index plumbing of `sort.Interface` is dropped and
the comparator kept as the binary relation it implements. -/
def lessByDateDesc (a b : Post) : Bool := goTimeAfter a.meta.parsedDate b.meta.parsedDate

/-- `sort.Sort(ByDateDesc(posts))`, modelled as insertion sort by the
comparator; on distinct keys any comparison sort yields this order. -/
def sortPosts (l : List Post) : List Post :=
  List.insertionSort (fun a b => lessByDateDesc a b = true) l

/-- A DOM node as goquery/x-net-html presents it: text nodes, elements, and
`raw` for the fragment a `SetHtml` call installed (serialized back verbatim;
the highlighter's escaped `<span>` markup round-trips through the fragment
parser unchanged). The parse step `goquery.NewDocumentFromReader` is
abstracted: theorems quantify over the parsed `<body>` children. -/
inductive HNode where
  | text (s : String)
  | raw (s : String)
  | elem (tag : String) (attrs : List (String × String)) (children : List HNode)

/-- Entity escaping `html.Render` applies inside text nodes and attribute
values. -/
def escChar (c : Char) : List Char :=
  if c = '&' then "&amp;".data
  else if c = '\'' then "&#39;".data
  else if c = '<' then "&lt;".data
  else if c = '>' then "&gt;".data
  else if c = '"' then "&#34;".data
  else [c]

/-- Escape a whole string. -/
def escStr (s : String) : List Char := (s.data.map escChar).flatten

/-- Serialize an attribute list: ` key="value"` each. -/
def serAttrs : List (String × String) → List Char
  | [] => []
  | kv :: rest => ' ' :: (kv.1.data ++ '=' :: '"' :: escStr kv.2 ++ '"' :: serAttrs rest)

mutual

/-- Serialization of one node, as `html.Render` does for the non-void
elements this pipeline produces. -/
def serNode : HNode → List Char
  | .text s => escStr s
  | .raw s => s.data
  | .elem tag attrs children =>
    '<' :: (tag.data ++ serAttrs attrs ++ '>' :: serNodes children) ++ '<' :: '/' :: (tag.data ++ ['>'])

/-- Serialization of a node list. -/
def serNodes : List HNode → List Char
  | [] => []
  | n :: ns => serNode n ++ serNodes ns

end

mutual

/-- `Selection.Text()`: the concatenated text of all descendant text nodes. -/
def nodeText : HNode → String
  | .text s => s
  | .raw _ => ""
  | .elem _ _ children => nodesText children

/-- Text of a node list. -/
def nodesText : List HNode → String
  | [] => ""
  | n :: ns => nodeText n ++ nodesText ns

end

/-- First `class` attribute value, `""` if absent (goquery `Attr`). -/
def classAttr : List (String × String) → String
  | [] => ""
  | kv :: rest => if kv.1 = "class" then kv.2 else classAttr rest

/-- Substring occurrence test (`strings.Contains` / the CSS `[class*=…]`
attribute-substring match). -/
def containsSub (pat : List Char) : List Char → Bool
  | [] => pat.isEmpty
  | c :: rest => pat.isPrefixOf (c :: rest) || containsSub pat rest

/-- Does an element match the selector `code[class*="language-"]`? -/
def matchesCodeSel (tag : String) (attrs : List (String × String)) : Bool :=
  tag = "code" && containsSub "language-".data (classAttr attrs).data

mutual

/-- The `doc.Find(…).Each(…)` rewrite: for every matched `code` element,
read its plain text, run the highlighter `hl` (modelling
`syntaxhighlight.AsHTML`: the returned bytes and whether it failed —
on failure AsHTML returns `nil`, i.e. `""`), and `SetHtml` the returned
bytes as the element's new content. The error component is dropped, exactly
as `formatted, _ := syntaxhighlight.AsHTML(…)` drops it. -/
def trNode (hl : String → String × Bool) : HNode → HNode
  | .text s => .text s
  | .raw s => .raw s
  | .elem tag attrs children =>
    if matchesCodeSel tag attrs then .elem tag attrs [.raw (hl (nodesText children)).1]
    else .elem tag attrs (trNodes hl children)

/-- `trNode` over a node list. -/
def trNodes (hl : String → String × Bool) : List HNode → List HNode
  | [] => []
  | n :: ns => trNode hl n :: trNodes hl ns

end

/-- `strings.Replace(s, pat, "", 1)` for nonempty `pat`: remove the leftmost
occurrence of `pat`, if any. -/
def replaceOnce (s pat : List Char) : List Char :=
  match s with
  | [] => []
  | c :: rest => if pat.isPrefixOf (c :: rest) then (c :: rest).drop pat.length else c :: replaceOnce rest pat

/-- The wrapper prefix `doc.Html()` serialization adds. -/
def wrapPre : List Char := "<html><head></head><body>".data

/-- The wrapper suffix `doc.Html()` serialization adds. -/
def wrapSuf : List Char := "</body></html>".data

/-- `replaceCodeParts(htmlFile)` after the parse step: given the parsed
`<body>` children, rewrite matched code elements, serialize the whole
document (`doc.Html()` = wrapper prefix ++ body serialization ++ wrapper
suffix), then strip one occurrence of each wrapper substring, exactly as
the two `strings.Replace(…, 1)` calls do. -/
def replaceCodeParts (hl : String → String × Bool) (body : List HNode) : List Char :=
  let whole := wrapPre ++ serNodes (trNodes hl body) ++ wrapSuf
  replaceOnce (replaceOnce whole wrapPre) wrapSuf

/-! ### Helper lemmas on the list primitives -/

theorem isPrefixOf_iff (l : List Char) : ∀ s : List Char, l.isPrefixOf s = true ↔ ∃ t, s = l ++ t := by
  induction l with
  | nil => intro s; simp [List.isPrefixOf]
  | cons a as ih =>
    intro s
    cases s with
    | nil => simp [List.isPrefixOf]
    | cons b bs =>
      simp only [List.isPrefixOf, Bool.and_eq_true, beq_iff_eq, ih bs, List.cons_append]
      constructor
      · rintro ⟨rfl, t, rfl⟩; exact ⟨t, rfl⟩
      · rintro ⟨t, h⟩
        cases h
        exact ⟨rfl, t, rfl⟩

theorem isPrefixOf_append_self (l t : List Char) : l.isPrefixOf (l ++ t) = true :=
  (isPrefixOf_iff l (l ++ t)).mpr ⟨t, rfl⟩

theorem replaceOnce_self (pat t : List Char) (hne : pat ≠ []) :
    replaceOnce (pat ++ t) pat = t := by
  cases pat with
  | nil => exact absurd rfl hne
  | cons p ps =>
    show replaceOnce (p :: (ps ++ t)) (p :: ps) = t
    rw [replaceOnce]
    have h : (p :: ps).isPrefixOf (p :: ps ++ t) = true := isPrefixOf_append_self _ _
    simp only [List.cons_append] at h
    simp only [h, if_true]
    have : p :: (ps ++ t) = (p :: ps) ++ t := rfl
    rw [this, List.drop_left]

theorem containsSub_cons_false {pat : List Char} {c : Char} {rest : List Char}
    (h : containsSub pat (c :: rest) = false) :
    pat.isPrefixOf (c :: rest) = false ∧ containsSub pat rest = false := by
  rw [containsSub, Bool.or_eq_false_iff] at h
  exact h

theorem replaceOnce_append_unique (pat : List Char) (hne : pat ≠ [])
    (hper : ∀ k, k < pat.length → 0 < k → pat.drop k ≠ pat.take (pat.length - k)) :
    ∀ s : List Char, containsSub pat s = false → replaceOnce (s ++ pat) pat = s := by
  intro s
  induction s with
  | nil => intro _; simpa using replaceOnce_self pat [] hne
  | cons c s' ih =>
    intro hnc
    obtain ⟨hp, hcs⟩ := containsSub_cons_false hnc
    have hb : pat.isPrefixOf (c :: s' ++ pat) = false := by
      by_contra hbt
      rw [Bool.not_eq_false, isPrefixOf_iff] at hbt
      obtain ⟨t, ht⟩ := hbt
      by_cases hm : pat.length ≤ (c :: s').length
      · have htake : (c :: s' ++ pat).take pat.length = (c :: s').take pat.length := by
          rw [show c :: s' ++ pat = (c :: s') ++ pat from rfl, List.take_append_of_le_length hm]
        rw [ht, List.take_left] at htake
        have : pat.isPrefixOf (c :: s') = true := by
          rw [isPrefixOf_iff]
          refine ⟨(c :: s').drop pat.length, ?_⟩
          conv_lhs => rw [← List.take_append_drop pat.length (c :: s')]
          rw [← htake]
        rw [this] at hp
        exact Bool.noConfusion hp
      · push_neg at hm
        have hdrop : pat = pat.drop (c :: s').length ++ t := by
          have h2 := congrArg (List.drop (c :: s').length) ht
          rw [show c :: s' ++ pat = (c :: s') ++ pat from rfl, List.drop_left] at h2
          rw [List.drop_append_of_le_length (le_of_lt hm)] at h2
          exact h2
        have heq : pat.drop (c :: s').length = pat.take (pat.length - (c :: s').length) := by
          have h3 := List.take_left (pat.drop (c :: s').length) t
          simp only [List.length_drop] at h3
          have h4 := congrArg (List.take (pat.length - (c :: s').length)) hdrop
          rw [h3] at h4
          exact h4.symm
        exact hper (c :: s').length hm (by simp) heq
    rw [show (c :: s') ++ pat = c :: (s' ++ pat) from rfl, replaceOnce]
    rw [show c :: (s' ++ pat) = (c :: s') ++ pat from rfl, hb]
    simp only [Bool.false_eq_true, if_false]
    rw [ih hcs]

/-! ### Stream and read-loop lemmas -/

theorem readStringNL_append {a : List Char} (ha : '\n' ∉ a) (rest : List Char) :
    readStringNL (a ++ '\n' :: rest) = (a ++ ['\n'], rest, false) := by
  induction a with
  | nil => simp [readStringNL]
  | cons c cs ih =>
    have hc : c ≠ '\n' := fun h => ha (h ▸ List.mem_cons_self c cs)
    have hcs : '\n' ∉ cs := fun h => ha (List.mem_cons_of_mem c h)
    simp [readStringNL, hc, ih hcs]

theorem readStringNL_noNL {a : List Char} (ha : '\n' ∉ a) :
    readStringNL a = (a, [], true) := by
  induction a with
  | nil => rfl
  | cons c cs ih =>
    have hc : c ≠ '\n' := fun h => ha (h ▸ List.mem_cons_self c cs)
    have hcs : '\n' ∉ cs := fun h => ha (List.mem_cons_of_mem c h)
    simp [readStringNL, hc, ih hcs]

theorem readHeaderLoop_empty (buf : List Char) : ∀ fuel, readHeaderLoop fuel (some []) buf = none := by
  intro fuel
  induction fuel generalizing buf with
  | zero => rfl
  | succ n ih =>
    show readHeaderLoop (n + 1) (some []) buf = none
    rw [readHeaderLoop]
    simp only [readLine, readStringNL]
    norm_num [isFence, List.isPrefixOf]
    rw [if_neg (by decide)]
    exact ih buf

/-- Concatenate header lines, each content followed by a newline. -/
def joinNL (cs : List (List Char)) : List Char := (cs.map (fun c => c ++ ['\n'])).flatten

theorem readHeaderLoop_consume (body : List Char) :
    ∀ (cs : List (List Char)) (buf : List Char) (fuel : Nat),
    cs.length < fuel →
    (∀ c ∈ cs, ('\n' ∉ c) ∧ isFence (c ++ ['\n']) = false) →
    readHeaderLoop fuel (some (joinNL cs ++ '-' :: '-' :: '-' :: '\n' :: body)) buf
      = some (.ok (buf ++ joinNL cs, some body)) := by
  intro cs
  induction cs with
  | nil =>
    intro buf fuel hf _
    obtain ⟨n, rfl⟩ : ∃ n, fuel = n + 1 := ⟨fuel - 1, by omega⟩
    rw [readHeaderLoop]
    have h3 : '\n' ∉ ['-', '-', '-'] := by decide
    have hr := readStringNL_append h3 body
    simp only [joinNL, List.map_nil, List.flatten_nil, List.nil_append, readLine]
    simp only [List.append_eq, List.cons_append, List.nil_append] at hr ⊢
    simp only [hr]
    simp [isFence, List.isPrefixOf]
  | cons c cs ih =>
    intro buf fuel hf hwf
    obtain ⟨n, rfl⟩ : ∃ n, fuel = n + 1 := ⟨fuel - 1, by omega⟩
    obtain ⟨hcn, hcf⟩ := hwf c (List.mem_cons_self c cs)
    rw [readHeaderLoop]
    have hstream : joinNL (c :: cs) ++ '-' :: '-' :: '-' :: '\n' :: body
        = c ++ '\n' :: (joinNL cs ++ '-' :: '-' :: '-' :: '\n' :: body) := by
      simp [joinNL]
    rw [hstream]
    simp only [readLine]
    simp only [readStringNL_append hcn]
    rw [if_neg (by decide), if_neg (by simp [hcf])]
    rw [ih (buf ++ (c ++ ['\n'])) n (by simpa using Nat.lt_of_succ_lt_succ hf)
      (fun x hx => hwf x (List.mem_cons_of_mem c hx))]
    have hbuf : buf ++ (c ++ ['\n']) ++ joinNL cs = buf ++ joinNL (c :: cs) := by
      simp [joinNL]
    rw [hbuf]

/-! ### YAML-model lemmas -/

theorem splitLines_append {a : List Char} (ha : '\n' ∉ a) (rest : List Char) :
    splitLines (a ++ '\n' :: rest) = a :: splitLines rest := by
  induction a with
  | nil => simp [splitLines]
  | cons c cs ih =>
    have hc : c ≠ '\n' := fun h => ha (h ▸ List.mem_cons_self c cs)
    have hcs : '\n' ∉ cs := fun h => ha (List.mem_cons_of_mem c h)
    rw [List.cons_append, splitLines, if_neg hc, ih hcs]

theorem splitAtColon_append {k : List Char} (hk : ':' ∉ k) (v : List Char) :
    splitAtColon (k ++ ':' :: v) = some (k, v) := by
  induction k with
  | nil => simp [splitAtColon]
  | cons c cs ih =>
    have hc : c ≠ ':' := fun h => hk (h ▸ List.mem_cons_self c cs)
    have hcs : ':' ∉ cs := fun h => hk (List.mem_cons_of_mem c h)
    rw [List.cons_append, splitAtColon, if_neg hc, ih hcs]

theorem dropWhile_space_eq_self {t : List Char} (h : t.head? ≠ some ' ') :
    (t.dropWhile fun c => c == ' ') = t := by
  cases t with
  | nil => rfl
  | cons c cs =>
    have hc : ¬ (c == ' ') = true := by
      simp only [beq_iff_eq]
      intro hcc
      exact h (by rw [hcc]; rfl)
    simp [List.dropWhile, hc]

theorem trimSpaces_space_cons {t : List Char}
    (h1 : t.head? ≠ some ' ') (h2 : t.getLast? ≠ some ' ') :
    trimSpaces (' ' :: t) = t := by
  rw [trimSpaces]
  have hdw : ((' ' :: t).dropWhile fun c => c == ' ') = t.dropWhile fun c => c == ' ' := by
    simp [List.dropWhile]
  rw [hdw, dropWhile_space_eq_self h1]
  have hrev : t.reverse.head? ≠ some ' ' := by
    rw [List.head?_reverse]
    exact h2
  rw [dropWhile_space_eq_self hrev, List.reverse_reverse]

/-- Characters allowed in the simple scalar values used in the functional
correctness statements: alphanumerics, space, and a few punctuation marks
on which the YAML model provably coincides with `yaml.v2`. -/
def isPlainChar (c : Char) : Bool :=
  c.isAlphanum || c == ' ' || c == '-' || c == '_' || c == '.' || c == ','

/-- A simple scalar value: nonempty, plain characters only, no surrounding
spaces (so YAML's value trimming returns it verbatim). -/
def SimpleVal (v : List Char) : Prop :=
  v ≠ [] ∧ (∀ c ∈ v, isPlainChar c = true) ∧ v.head? ≠ some ' ' ∧ v.getLast? ≠ some ' '

instance (v : List Char) : Decidable (SimpleVal v) := by
  unfold SimpleVal
  infer_instance

theorem SimpleVal.not_mem_nl {v : List Char} (h : SimpleVal v) : '\n' ∉ v := by
  intro hm
  have := h.2.1 '\n' hm
  simp [isPlainChar] at this

theorem SimpleVal.not_mem_colon {v : List Char} (h : SimpleVal v) : ':' ∉ v := by
  intro hm
  have := h.2.1 ':' hm
  simp [isPlainChar] at this

/-- The raw content of one `key: value` header line (without the newline). -/
def kvChars (k : String) (v : List Char) : List Char := k.data ++ ':' :: ' ' :: v

theorem yamlLine_kv {k : String} (hk : ':' ∉ k.data) {v : List Char} (hv : SimpleVal v) :
    yamlLine (kvChars k v) = some (k.data, v) := by
  rw [yamlLine, kvChars, splitAtColon_append hk]
  simp [trimSpaces_space_cons hv.2.2.1 hv.2.2.2]

theorem not_mem_nl_kvChars {k : String} (hk : '\n' ∉ k.data) {v : List Char} (hv : SimpleVal v) :
    '\n' ∉ kvChars k v := by
  intro hm
  rw [kvChars] at hm
  rcases List.mem_append.mp hm with h | h
  · exact hk h
  · rcases List.mem_cons.mp h with h' | h'
    · exact absurd h' (by decide)
    · rcases List.mem_cons.mp h' with h2 | h2
      · exact absurd h2 (by decide)
      · exact hv.not_mem_nl h2

theorem yamlGo_cons_title (t : List Char) (ht : SimpleVal t) (ls : List (List Char))
    (acc : List Char × List Char × List Char) :
    yamlGo (kvChars "title" t :: ls) acc = yamlGo ls (t, acc.2.1, acc.2.2) := by
  rw [yamlGo, if_neg (show ¬ kvChars "title" t = [] by simp [kvChars])]
  rw [yamlLine_kv (show ':' ∉ "title".data by decide) ht]
  show (if "title".data = "title".data then yamlGo ls (t, acc.2.1, acc.2.2)
        else if "title".data = "short".data then yamlGo ls (acc.1, t, acc.2.2)
        else if "title".data = "date".data then yamlGo ls (acc.1, acc.2.1, t)
        else yamlGo ls acc) = yamlGo ls (t, acc.2.1, acc.2.2)
  rw [if_pos rfl]

theorem yamlGo_cons_short (s : List Char) (hs : SimpleVal s) (ls : List (List Char))
    (acc : List Char × List Char × List Char) :
    yamlGo (kvChars "short" s :: ls) acc = yamlGo ls (acc.1, s, acc.2.2) := by
  rw [yamlGo, if_neg (show ¬ kvChars "short" s = [] by simp [kvChars])]
  rw [yamlLine_kv (show ':' ∉ "short".data by decide) hs]
  show (if "short".data = "title".data then yamlGo ls (s, acc.2.1, acc.2.2)
        else if "short".data = "short".data then yamlGo ls (acc.1, s, acc.2.2)
        else if "short".data = "date".data then yamlGo ls (acc.1, acc.2.1, s)
        else yamlGo ls acc) = yamlGo ls (acc.1, s, acc.2.2)
  rw [if_neg (by decide), if_pos rfl]

theorem yamlGo_cons_date (d : List Char) (hd : SimpleVal d) (ls : List (List Char))
    (acc : List Char × List Char × List Char) :
    yamlGo (kvChars "date" d :: ls) acc = yamlGo ls (acc.1, acc.2.1, d) := by
  rw [yamlGo, if_neg (show ¬ kvChars "date" d = [] by simp [kvChars])]
  rw [yamlLine_kv (show ':' ∉ "date".data by decide) hd]
  show (if "date".data = "title".data then yamlGo ls (d, acc.2.1, acc.2.2)
        else if "date".data = "short".data then yamlGo ls (acc.1, d, acc.2.2)
        else if "date".data = "date".data then yamlGo ls (acc.1, acc.2.1, d)
        else yamlGo ls acc) = yamlGo ls (acc.1, acc.2.1, d)
  rw [if_neg (by decide), if_neg (by decide), if_pos rfl]

theorem yamlUnmarshalMeta_canonical {t s d : List Char}
    (ht : SimpleVal t) (hs : SimpleVal s) (hd : SimpleVal d) :
    yamlUnmarshalMeta (joinNL [kvChars "title" t, kvChars "short" s, kvChars "date" d])
      = some (t, s, d) := by
  have h1 : '\n' ∉ kvChars "title" t := not_mem_nl_kvChars (by decide) ht
  have h2 : '\n' ∉ kvChars "short" s := not_mem_nl_kvChars (by decide) hs
  have h3 : '\n' ∉ kvChars "date" d := not_mem_nl_kvChars (by decide) hd
  have e : joinNL [kvChars "title" t, kvChars "short" s, kvChars "date" d]
      = kvChars "title" t ++ '\n' :: (kvChars "short" s ++ '\n' :: (kvChars "date" d ++ '\n' :: [])) := by
    simp [joinNL]
  rw [yamlUnmarshalMeta, e, splitLines_append h1, splitLines_append h2, splitLines_append h3]
  rw [yamlGo_cons_title t ht, yamlGo_cons_short s hs, yamlGo_cons_date d hd]
  rfl

/-- The full character stream of a canonical well-formed post document:
opening fence, the three header lines, closing fence, then the body. -/
def headerStream (t s d body : List Char) : List Char :=
  '-' :: '-' :: '-' :: '\n' ::
    (joinNL [kvChars "title" t, kvChars "short" s, kvChars "date" d]
      ++ '-' :: '-' :: '-' :: '\n' :: body)

theorem isFence_kvChars_title (t : List Char) : isFence (kvChars "title" t ++ ['\n']) = false := by
  rw [kvChars, show "title".data = ['t', 'i', 't', 'l', 'e'] from rfl]
  simp [isFence, List.isPrefixOf]

theorem isFence_kvChars_short (s : List Char) : isFence (kvChars "short" s ++ ['\n']) = false := by
  rw [kvChars, show "short".data = ['s', 'h', 'o', 'r', 't'] from rfl]
  simp [isFence, List.isPrefixOf]

theorem isFence_kvChars_date (d : List Char) : isFence (kvChars "date" d ++ ['\n']) = false := by
  rw [kvChars, show "date".data = ['d', 'a', 't', 'e'] from rfl]
  simp [isFence, List.isPrefixOf]

theorem getMeta_header_shape (t s d body : List Char) (fuel : Nat) (fmt : String)
    (pt : String → List Char → Option Int)
    (ht : SimpleVal t) (hs : SimpleVal s) (hd : SimpleVal d) (hfuel : 4 ≤ fuel) :
    getMeta fuel (some (headerStream t s d body)) fmt pt
      = some (.ok ({ title := t, short := s, date := d,
                     parsedDate := (pt fmt d).getD 0 }, some body)) := by
  rw [getMeta, headerStream]
  simp only [readLine]
  have h3 : '\n' ∉ ['-', '-', '-'] := by decide
  have hr := readStringNL_append h3
    (joinNL [kvChars "title" t, kvChars "short" s, kvChars "date" d] ++ '-' :: '-' :: '-' :: '\n' :: body)
  simp only [List.cons_append, List.nil_append] at hr
  simp only [hr]
  rw [if_neg (by decide), if_neg (by simp [isFence, List.isPrefixOf])]
  have hwf : ∀ c ∈ [kvChars "title" t, kvChars "short" s, kvChars "date" d],
      ('\n' ∉ c) ∧ isFence (c ++ ['\n']) = false := by
    intro c hc
    rcases List.mem_cons.mp hc with rfl | hc
    · exact ⟨not_mem_nl_kvChars (by decide) ht, isFence_kvChars_title t⟩
    rcases List.mem_cons.mp hc with rfl | hc
    · exact ⟨not_mem_nl_kvChars (by decide) hs, isFence_kvChars_short s⟩
    rcases List.mem_cons.mp hc with rfl | hc
    · exact ⟨not_mem_nl_kvChars (by decide) hd, isFence_kvChars_date d⟩
    · exact absurd hc (List.not_mem_nil c)
  rw [readHeaderLoop_consume body [kvChars "title" t, kvChars "short" s, kvChars "date" d]
    [] fuel (by simpa using hfuel) hwf]
  have hlen : ¬ ((joinNL [kvChars "title" t, kvChars "short" s, kvChars "date" d]).length < 3) := by
    simp [joinNL, kvChars]
  simp [hlen, yamlUnmarshalMeta_canonical ht hs hd]

/-! ### Divergence of the read loop at end of stream -/

theorem readHeaderLoop_titleHi (fuel : Nat) (buf : List Char) :
    readHeaderLoop fuel (some "title: hi\n".data) buf = none := by
  cases fuel with
  | zero => rfl
  | succ n =>
    rw [readHeaderLoop]
    have h2 : readStringNL "title: hi\n".data = ("title: hi\n".data, [], false) := by decide
    simp only [readLine, h2]
    rw [if_neg (by decide), if_neg (by decide)]
    exact readHeaderLoop_empty _ n

/-! ### Error-message taxonomy -/

/-- Does an error message belong to the `InvalidMetadata` family (the
`ReadAll`/too-short message or the YAML unmarshal message)? -/
def invalidMetaMsg (m : String) : Bool :=
  "error ReadAll: ".data.isPrefixOf m.data || "error reading yml: ".data.isPrefixOf m.data

/-! ### Congruence of the code-block rewrite in the highlighter's output
component (the error component of the tokenizer is dropped by the source,
so it cannot influence the result) -/

mutual

theorem trNode_congr_fst (hl hl' : String → String × Bool) (h : ∀ s, (hl s).1 = (hl' s).1) :
    ∀ n : HNode, trNode hl n = trNode hl' n
  | .text s => rfl
  | .raw s => rfl
  | .elem tag attrs children => by
    rw [trNode, trNode]
    by_cases hm : matchesCodeSel tag attrs
    · rw [if_pos hm, if_pos hm, h]
    · rw [if_neg hm, if_neg hm, trNodes_congr_fst hl hl' h children]

theorem trNodes_congr_fst (hl hl' : String → String × Bool) (h : ∀ s, (hl s).1 = (hl' s).1) :
    ∀ ns : List HNode, trNodes hl ns = trNodes hl' ns
  | [] => rfl
  | n :: ns => by
    rw [trNodes, trNodes, trNode_congr_fst hl hl' h n, trNodes_congr_fst hl hl' h ns]

end

/-! ### The wrapper suffix has no nontrivial period -/

theorem wrapSuf_no_period :
    ∀ k, k < wrapSuf.length → 0 < k → wrapSuf.drop k ≠ wrapSuf.take (wrapSuf.length - k) := by
  decide

theorem wrapPre_ne_nil : wrapPre ≠ [] := by decide

theorem wrapSuf_ne_nil : wrapSuf ≠ [] := by decide

/-! ### The listing order is a total preorder -/

theorem lexLe_total : ∀ a b : List Char, lexLe a b = true ∨ lexLe b a = true := by
  intro a
  induction a with
  | nil => intro b; left; rfl
  | cons x xs ih =>
    intro b
    cases b with
    | nil => right; rfl
    | cons y ys =>
      by_cases hxy : x = y
      · subst hxy
        rcases ih ys with h | h
        · left; simpa [lexLe] using h
        · right; simpa [lexLe] using h
      · rcases lt_or_gt_of_ne hxy with h | h
        · left; simp [lexLe, hxy, h]
        · right; simp [lexLe, Ne.symm hxy, h]

theorem lexLe_trans : ∀ a b c : List Char, lexLe a b = true → lexLe b c = true → lexLe a c = true := by
  intro a
  induction a with
  | nil => intro b c _ _; rfl
  | cons x xs ih =>
    intro b c hab hbc
    cases b with
    | nil => simp [lexLe] at hab
    | cons y ys =>
      cases c with
      | nil => simp [lexLe] at hbc
      | cons z zs =>
        by_cases hxy : x = y <;> by_cases hyz : y = z
        · subst hxy; subst hyz
          simp only [lexLe, if_pos rfl] at hab hbc ⊢
          exact ih ys zs hab hbc
        · subst hxy
          simp only [lexLe, if_pos rfl, if_neg hyz] at hbc ⊢
          exact hbc
        · subst hyz
          simp only [lexLe, if_pos rfl, if_neg hxy] at hab ⊢
          exact hab
        · simp only [lexLe, if_neg hxy, if_neg hyz, decide_eq_true_eq] at hab hbc
          have hxz : x < z := lt_trans hab hbc
          simp [lexLe, ne_of_lt hxz, hxz]

instance : IsTotal String strLeB :=
  ⟨fun a b => lexLe_total a.data b.data⟩

instance : IsTrans String strLeB :=
  ⟨fun a b c => lexLe_trans a.data b.data c.data⟩

/-! ## Claims -/

/-- C1: for every well-formed header block (opening `---` line, valid
key-value lines for `title`, `short`, `date` with at least 3 bytes of
content, a closing `---` line), `getMeta` returns a `Meta` whose `title`,
`short` and `date` fields are exactly the values written in the header,
and the stream position afterwards is the first byte of the body, so the
renderer receives only the body bytes. -/
theorem getMeta_recovers_header_fields (t s d body : List Char) (fuel : Nat) (fmt : String)
    (pt : String → List Char → Option Int)
    (ht : SimpleVal t) (hs : SimpleVal s) (hd : SimpleVal d) (hfuel : 4 ≤ fuel) :
    getMeta fuel (some (headerStream t s d body)) fmt pt
      = some (.ok ({ title := t, short := s, date := d,
                     parsedDate := (pt fmt d).getD 0 }, some body)) :=
  getMeta_header_shape t s d body fuel fmt pt ht hs hd hfuel

theorem getMeta_recovers_header_fields_witness :
    SimpleVal "Hello".data ∧ SimpleVal "A greeting".data ∧ SimpleVal "2023-05-01".data ∧ 4 ≤ 4
    ∧ getMeta 4 (some (headerStream "Hello".data "A greeting".data "2023-05-01".data "# Hi\n".data))
        "2006-01-02" (fun _ _ => none)
      = some (.ok ({ title := "Hello".data, short := "A greeting".data, date := "2023-05-01".data,
                     parsedDate := ((none : Option Int)).getD 0 }, some "# Hi\n".data)) :=
  ⟨by decide, by decide, by decide, by decide,
   getMeta_recovers_header_fields "Hello".data "A greeting".data "2023-05-01".data "# Hi\n".data
     4 "2006-01-02" (fun _ _ => none) (by decide) (by decide) (by decide) (by decide)⟩

/-- C2: the claim says that when the stream ends before a closing `---`
fence, `getMeta` terminates and treats what was read as the header body.
The code does not: at end of stream `ReadString` keeps returning
`("", io.EOF)`, which neither breaks the loop (no `---` prefix) nor
returns (the error is `io.EOF`), so the loop runs forever. This theorem
shows the divergence on the concrete unterminated input
`"---\ntitle: hi\n"`: no amount of fuel makes the loop produce any
outcome. -/
theorem getMeta_unterminated_header_diverges (fuel : Nat) (fmt : String)
    (pt : String → List Char → Option Int) :
    getMeta fuel (some "---\ntitle: hi\n".data) fmt pt = none := by
  rw [getMeta]
  have h0 : "---\ntitle: hi\n".data = '-' :: '-' :: '-' :: '\n' :: "title: hi\n".data := rfl
  have h3 : '\n' ∉ ['-', '-', '-'] := by decide
  have hr := readStringNL_append h3 "title: hi\n".data
  simp only [List.cons_append, List.nil_append] at hr
  rw [h0]
  simp only [readLine, hr]
  rw [if_neg (by decide), if_neg (by simp [isFence, List.isPrefixOf])]
  rw [readHeaderLoop_titleHi fuel []]

/-- C3: the claim says a failed open of `post.md` surfaces as an error
wrapping the underlying cause and the attempted path, with no `Post`.
In the code, the `err` of `os.Open` is discarded (immediately overwritten
by the `getMeta` call), assembly continues on the nil handle, and the
failure only surfaces at the first `ReadString`, which returns
`os.ErrInvalid`; the resulting message carries the attempted path but the
`invalid argument` read error instead of the original open failure's
cause. This theorem evaluates the model at a directory whose `post.md`
cannot be opened. -/
theorem newPost_missing_post_md :
    newPost (fun _ => none) (fun _ => .ok []) (fun _ => DirRes.notExist)
        "mydir" "2006-01-02" 5 (fun _ _ => none)
      = some (.error "error parsing meta in mydir/post.md:error ReadString: invalid argument") := rfl

/-- C4 counterexample: the claim says that when the tokenizer fails on a
matched code element, the element's original plain text remains unchanged
in the output. It does not: `syntaxhighlight.AsHTML` returns `nil` bytes
on failure, the code ignores the error and calls `SetHtml(string(nil))`,
so the element's content becomes empty — the original text `abc` is gone
from the output. -/
theorem replaceCodeParts_failure_clears_content :
    replaceCodeParts (fun _ => ("", true)) [.elem "code" [("class", "language-go")] [.text "abc"]]
      = "<code class=\"language-go\"></code>".data
    ∧ containsSub "abc".data
        (replaceCodeParts (fun _ => ("", true))
          [.elem "code" [("class", "language-go")] [.text "abc"]]) = false :=
  ⟨by decide, by decide⟩

/-- C4 (amended): a tokenizer failure never aborts the highlight operation
and never influences its result at all — the output depends only on the
bytes the tokenizer returns (which replace the element's content), not on
its error component, because `formatted, _ := syntaxhighlight.AsHTML(…)`
drops the error. -/
theorem replaceCodeParts_ignores_tokenizer_failure (body : List HNode)
    (f : String → String) (e₁ e₂ : String → Bool) :
    replaceCodeParts (fun s => (f s, e₁ s)) body
      = replaceCodeParts (fun s => (f s, e₂ s)) body := by
  show replaceOnce (replaceOnce (wrapPre ++ serNodes (trNodes (fun s => (f s, e₁ s)) body) ++ wrapSuf) wrapPre) wrapSuf
      = replaceOnce (replaceOnce (wrapPre ++ serNodes (trNodes (fun s => (f s, e₂ s)) body) ++ wrapSuf) wrapPre) wrapSuf
  rw [trNodes_congr_fst (fun s => (f s, e₁ s)) (fun s => (f s, e₂ s)) (fun _ => rfl) body]

/-- C5 counterexample: the claim says `getImages` returns entry names in
the order the directory listing yields them, with no re-sorting, so a
listing `["b.png", "a.png"]` would come back unchanged. It does not:
`ioutil.ReadDir` sorts its result by filename before `getImages` collects
the names, so the raw listing `["b.png", "a.png"]` is returned as
`["a.png", "b.png"]`. -/
theorem getImages_listing_order_counterexample :
    getImages (fun _ => DirRes.entries ["b.png", "a.png"]) "post1"
      = .ok ("post1/images", ["a.png", "b.png"])
    ∧ (["a.png", "b.png"] : List String) ≠ ["b.png", "a.png"] :=
  ⟨rfl, by decide⟩

/-- C5 (amended): on a readable `images` directory, `getImages` returns
the directory's path and the names of all entries — nothing filtered,
subdirectories included — in the order `ioutil.ReadDir` yields them, which
is sorted lexicographically by filename; `getImages` itself adds no
further reordering. -/
theorem getImages_complete_sorted (raw : List String) (dir : String) :
    getImages (fun _ => DirRes.entries raw) dir = .ok (dir ++ "/images", sortByName raw)
    ∧ (sortByName raw).Perm raw
    ∧ List.Sorted strLeB (sortByName raw) :=
  ⟨rfl, List.perm_insertionSort _ raw, List.sorted_insertionSort _ raw⟩

/-- C6: the wrapper prefix `<html><head></head><body>` and suffix
`</body></html>` added by the highlighter's own serialization round-trip
are removed by the two exact substring removals before the result is
returned: whenever the serialized inner content does not itself contain
those substrings (i.e. any occurrence originated from the round-trip, not
the input), the output is exactly the inner content and contains neither
wrapper substring. -/
theorem replaceCodeParts_strips_wrappers (hl : String → String × Bool) (body : List HNode)
    (h1 : containsSub wrapPre (serNodes (trNodes hl body)) = false)
    (h2 : containsSub wrapSuf (serNodes (trNodes hl body)) = false) :
    replaceCodeParts hl body = serNodes (trNodes hl body)
    ∧ containsSub wrapPre (replaceCodeParts hl body) = false
    ∧ containsSub wrapSuf (replaceCodeParts hl body) = false := by
  have emain : replaceCodeParts hl body = serNodes (trNodes hl body) := by
    show replaceOnce (replaceOnce (wrapPre ++ serNodes (trNodes hl body) ++ wrapSuf) wrapPre) wrapSuf
        = serNodes (trNodes hl body)
    rw [List.append_assoc, replaceOnce_self wrapPre _ wrapPre_ne_nil,
      replaceOnce_append_unique wrapSuf wrapSuf_ne_nil wrapSuf_no_period _ h2]
  exact ⟨emain, by rw [emain]; exact h1, by rw [emain]; exact h2⟩

theorem replaceCodeParts_strips_wrappers_witness :
    containsSub wrapPre (serNodes (trNodes (fun s => (s, false)) [.elem "p" [] [.text "hi"]])) = false
    ∧ containsSub wrapSuf (serNodes (trNodes (fun s => (s, false)) [.elem "p" [] [.text "hi"]])) = false
    ∧ (replaceCodeParts (fun s => (s, false)) [.elem "p" [] [.text "hi"]]
        = serNodes (trNodes (fun s => (s, false)) [.elem "p" [] [.text "hi"]])
      ∧ containsSub wrapPre (replaceCodeParts (fun s => (s, false)) [.elem "p" [] [.text "hi"]]) = false
      ∧ containsSub wrapSuf (replaceCodeParts (fun s => (s, false)) [.elem "p" [] [.text "hi"]]) = false) :=
  ⟨by decide, by decide,
   replaceCodeParts_strips_wrappers (fun s => (s, false)) [.elem "p" [] [.text "hi"]]
     (by decide) (by decide)⟩

/-- C7: a stream whose first (newline-terminated) line does not begin with
`---` makes `getMeta` fail with the missing-opening-fence
(`MalformedHeader`) error and return no `Meta`. -/
theorem getMeta_missing_opening_fence (firstLine body : List Char) (fuel : Nat) (fmt : String)
    (pt : String → List Char → Option Int)
    (hnl : '\n' ∉ firstLine) (hnf : isFence (firstLine ++ ['\n']) = false) :
    getMeta fuel (some (firstLine ++ '\n' :: body)) fmt pt
      = some (.error "error in can not find \"---\"") := by
  rw [getMeta]
  simp only [readLine, readStringNL_append hnl]
  simp [hnf]

theorem getMeta_missing_opening_fence_witness :
    ('\n' ∉ "abc".data) ∧ isFence ("abc".data ++ ['\n']) = false
    ∧ getMeta 1 (some ("abc".data ++ '\n' :: "rest".data)) "2006-01-02" (fun _ _ => none)
      = some (.error "error in can not find \"---\"") :=
  ⟨by decide, by decide,
   getMeta_missing_opening_fence "abc".data "rest".data 1 "2006-01-02" (fun _ _ => none)
     (by decide) (by decide)⟩

/-- C8: with a valid opening fence, if the accumulated header content is
fewer than 3 bytes or fails to deserialize as a flat key-value document,
`getMeta` fails with an `InvalidMetadata`-family error (the too-short
`ReadAll` message or the YAML unmarshal message) and returns no `Meta`. -/
theorem getMeta_invalid_metadata_error (contents : List (List Char)) (body : List Char)
    (fuel : Nat) (fmt : String) (pt : String → List Char → Option Int)
    (hwf : ∀ c ∈ contents, ('\n' ∉ c) ∧ isFence (c ++ ['\n']) = false)
    (hfuel : contents.length < fuel)
    (hbad : (joinNL contents).length < 3 ∨ yamlUnmarshalMeta (joinNL contents) = none) :
    ∃ m, getMeta fuel
        (some ('-' :: '-' :: '-' :: '\n' :: (joinNL contents ++ '-' :: '-' :: '-' :: '\n' :: body)))
        fmt pt
      = some (.error m) ∧ invalidMetaMsg m = true := by
  rw [getMeta]
  have h3 : '\n' ∉ ['-', '-', '-'] := by decide
  have hr := readStringNL_append h3 (joinNL contents ++ '-' :: '-' :: '-' :: '\n' :: body)
  simp only [List.cons_append, List.nil_append] at hr
  simp only [readLine, hr]
  rw [if_neg (by decide), if_neg (by simp [isFence, List.isPrefixOf])]
  rw [readHeaderLoop_consume body contents [] fuel hfuel hwf]
  simp only [List.nil_append]
  by_cases hlen : (joinNL contents).length < 3
  · exact ⟨"error ReadAll: <nil>", by simp [hlen], by decide⟩
  · have hy : yamlUnmarshalMeta (joinNL contents) = none := hbad.resolve_left hlen
    exact ⟨"error reading yml: unmarshal error", by simp [hlen, hy], by decide⟩

theorem getMeta_invalid_metadata_error_witness :
    (∀ c ∈ [['a']], ('\n' ∉ c) ∧ isFence (c ++ ['\n']) = false)
    ∧ ([['a']] : List (List Char)).length < 2
    ∧ ((joinNL [['a']]).length < 3 ∨ yamlUnmarshalMeta (joinNL [['a']]) = none)
    ∧ ∃ m, getMeta 2
        (some ('-' :: '-' :: '-' :: '\n' :: (joinNL [['a']] ++ '-' :: '-' :: '-' :: '\n' :: "body".data)))
        "2006-01-02" (fun _ _ => none)
      = some (.error m) ∧ invalidMetaMsg m = true :=
  ⟨by decide, by decide, Or.inl (by decide),
   getMeta_invalid_metadata_error [['a']] "body".data 2 "2006-01-02" (fun _ _ => none)
     (by decide) (by decide) (Or.inl (by decide))⟩

/-- C9: when the decoded header's `date` field does not parse against the
caller-supplied date format, `getMeta` still succeeds: it returns the
decoded `Meta` with `parsedDate` left at the zero value, and the parse
failure is never surfaced as an error. -/
theorem getMeta_swallows_date_parse_failure (t s d body : List Char) (fuel : Nat) (fmt : String)
    (pt : String → List Char → Option Int)
    (ht : SimpleVal t) (hs : SimpleVal s) (hd : SimpleVal d) (hfuel : 4 ≤ fuel)
    (hfail : pt fmt d = none) :
    getMeta fuel (some (headerStream t s d body)) fmt pt
      = some (.ok ({ title := t, short := s, date := d, parsedDate := 0 }, some body)) := by
  have h := getMeta_header_shape t s d body fuel fmt pt ht hs hd hfuel
  rw [hfail] at h
  simpa using h

theorem getMeta_swallows_date_parse_failure_witness :
    SimpleVal "T".data ∧ SimpleVal "S".data ∧ SimpleVal "not a date".data ∧ 4 ≤ 4
    ∧ (fun _ _ => (none : Option Int)) "2006-01-02" "not a date".data = none
    ∧ getMeta 4 (some (headerStream "T".data "S".data "not a date".data "B".data))
        "2006-01-02" (fun _ _ => none)
      = some (.ok ({ title := "T".data, short := "S".data, date := "not a date".data,
                     parsedDate := 0 }, some "B".data)) :=
  ⟨by decide, by decide, by decide, by decide, rfl,
   getMeta_swallows_date_parse_failure "T".data "S".data "not a date".data "B".data
     4 "2006-01-02" (fun _ _ => none) (by decide) (by decide) (by decide) (by decide) rfl⟩

/-- A post with the given name whose parsed date is the integer `yyyymmdd`
encoding; only the date participates in the ordering. -/
def mkDatedPost (n : String) (pd : Int) : Post :=
  { name := n, html := [], meta := { title := [], short := [], date := [], parsedDate := pd },
    imagesDir := "", images := [] }

/-- C10: the comparator `ByDateDesc.Less` returns true exactly when the
left post's `meta.parsedDate` is strictly after (greater than) the right
post's, with no special-casing of equal or zero dates; sorting the three
posts dated 2023-01-01, 2023-06-01 and 2022-12-01 with it yields the
descending order 2023-06-01, 2023-01-01, 2022-12-01. -/
theorem byDateDesc_comparator_spec :
    (∀ a b : Post, lessByDateDesc a b = true ↔ b.meta.parsedDate < a.meta.parsedDate)
    ∧ sortPosts [mkDatedPost "p1" 20230101, mkDatedPost "p2" 20230601, mkDatedPost "p3" 20221201]
      = [mkDatedPost "p2" 20230601, mkDatedPost "p1" 20230101, mkDatedPost "p3" 20221201] := by
  constructor
  · intro a b
    simp [lessByDateDesc, goTimeAfter]
  · rfl

end BlogGen
